import Mathlib

set_option maxHeartbeats 1000000

/-! Shallow embedding of the Educational__Initiatives repository.

`src/KananGadhia2.py`: the Room / OfficeManager / Command occupancy
model.  Print side effects are abstracted: observer notification is
modelled as the list of `(observer, signal)` update events that
`notify_observers` delivers, and each operation that reports success or
failure to its caller returns that report as an explicit value.
Python's class-level singleton attribute `_instance` is threaded as
explicit state through `OfficeManager.new_`.

`src/KananGadhia.py`: the two in-place sorting strategies `BubbleSort`
and `QuickSort` (Lomuto partition scheme), embedded over `List Int`
with explicit index arithmetic mirroring the Python loops. -/

/-- The observer variants registered on every room: the AC and the Lights. -/
inductive Observer where
  | AC : Observer
  | Lights : Observer
deriving DecidableEq

structure Room where
  room_number : Int
  occupied : Bool
  max_capacity : Int
  observers : List Observer
deriving DecidableEq

namespace Room

/-- Python `Room.__init__(room_number)`: unoccupied, capacity 0, observers fixed to
`[AC(), Lights()]` in that order. -/
def init (room_number : Int) : Room :=
  { room_number := room_number, occupied := false, max_capacity := 0,
    observers := [Observer.AC, Observer.Lights] }

/-- Python `set_max_capacity(max_capacity)`: sets the capacity when the argument is
positive, otherwise prints the invalid-capacity warning.  The boolean result
is `true` for the success message and `false` for the warning. -/
def set_max_capacity (r : Room) (max_capacity : Int) : Room × Bool :=
  if max_capacity > 0 then ({ r with max_capacity := max_capacity }, true)
  else (r, false)

def get_room_number (r : Room) : Int := r.room_number

/-- Python `notify_observers()`: calls `observer.update(self.occupied)` on every
registered observer in list order; the trace records each delivered event. -/
def notify_observers (r : Room) : List (Observer × Bool) :=
  r.observers.map (fun o => (o, r.occupied))

/-- Python `add_occupants(count)`: sets `occupied` to whether `count >= 2`, then
notifies the observers.  Returns the updated room and the notification
trace. -/
def add_occupants (r : Room) (count : Int) : Room × List (Observer × Bool) :=
  let r' := if count ≥ 2 then { r with occupied := true } else { r with occupied := false }
  (r', r'.notify_observers)

/-- Python `release_occupants()`: unconditionally clears `occupied`, then notifies
the observers. -/
def release_occupants (r : Room) : Room × List (Observer × Bool) :=
  let r' := { r with occupied := false }
  (r', r'.notify_observers)

def is_occupied (r : Room) : Bool := r.occupied

end Room

structure OfficeManager where
  rooms : List Room
deriving DecidableEq

namespace OfficeManager

/-- Python `OfficeManager.__new__`: the class attribute `_instance` is passed in and
returned explicitly.  On first construction the instance is created with an
empty room list; afterwards the stored instance is returned unchanged. -/
def new_ (inst : Option OfficeManager) : OfficeManager × Option OfficeManager :=
  match inst with
  | none => let m : OfficeManager := { rooms := [] }; (m, some m)
  | some m => (m, some m)

/-- Python `configure_rooms(count)`: `for i in range(1, count + 1): rooms.append(Room(i))`. -/
def configure_rooms (m : OfficeManager) (count : Int) : OfficeManager :=
  { m with rooms := m.rooms ++ (List.range count.toNat).map (fun i => Room.init (Int.ofNat (i + 1))) }

/-- Python `get_room(room_number)`: the room at 1-based index `room_number` when
`0 < room_number <= len(rooms)`, otherwise prints the invalid-room-number
warning and returns `None`. -/
def get_room (m : OfficeManager) (room_number : Int) : Option Room :=
  if 0 < room_number ∧ room_number ≤ (m.rooms.length : Int) then
    m.rooms[(room_number - 1).toNat]?
  else
    none

end OfficeManager

/-- The console report `BookRoomCommand.execute` produces. -/
inductive BookResult where
  | booked (start_time : String) (duration : Int)
  | conflict
deriving DecidableEq

/-- Python `BookRoomCommand(room, start_time, duration)`: the command's own data;
the room reference is supplied at execution time as the referenced room's
current state. -/
structure BookRoomCommand where
  start_time : String
  duration : Int
deriving DecidableEq

namespace BookRoomCommand

/-- Python `BookRoomCommand.execute`: books the room (recording 2 occupants) when
it is free, otherwise reports that it is already booked. -/
def execute (c : BookRoomCommand) (room : Room) : Room × BookResult :=
  if !room.is_occupied then
    ((room.add_occupants 2).1, BookResult.booked c.start_time c.duration)
  else
    (room, BookResult.conflict)

end BookRoomCommand

/-- The console report `CancelBookingCommand.execute` produces. -/
inductive CancelResult where
  | cancelled
  | notBooked
deriving DecidableEq

/-- Python `CancelBookingCommand.execute`: releases the room when it is occupied,
otherwise reports that it is not booked. -/
def CancelBookingCommand.execute (room : Room) : Room × CancelResult :=
  if room.is_occupied then
    ((room.release_occupants).1, CancelResult.cancelled)
  else
    (room, CancelResult.notBooked)

/-! Embedding of the sorting strategies of `src/KananGadhia.py`.

A Python list of ints is a `List Int`.  `a[i]` at the non-negative
in-bounds indices these algorithms use is `getN` (Nat index) or `getI`
(the Python int index), and the parallel assignment
`a[i], a[j] = a[j], a[i]` is `swapN` / `swapI`.  The in-place updates are
threaded functionally: each loop returns the updated list. -/

def getN (a : List Int) (i : Nat) : Int := a.getD i 0

def setN (a : List Int) (i : Nat) (v : Int) : List Int := a.set i v

def swapN (a : List Int) (i j : Nat) : List Int :=
  setN (setN a i (getN a j)) j (getN a i)

def getI (a : List Int) (i : Int) : Int := getN a i.toNat

def swapI (a : List Int) (i j : Int) : List Int := swapN a i.toNat j.toNat

namespace BubbleSort

/-- The inner loop `for j in range(n - i - 1)` of `BubbleSort.sort`, running
from the current `j` up to `m = n - i - 1` and swapping adjacent
out-of-order elements. -/
def inner (a : List Int) (j m : Nat) : List Int :=
  if h : j < m then
    inner (if getN a j > getN a (j + 1) then swapN a j (j + 1) else a) (j + 1) m
  else a
  termination_by m - j
  decreasing_by omega

/-- The outer loop `for i in range(n - 1)` of `BubbleSort.sort`. -/
def outer (a : List Int) (n i : Nat) : List Int :=
  if h : i < n - 1 then outer (inner a 0 (n - 1 - i)) n (i + 1) else a
  termination_by n - 1 - i
  decreasing_by omega

/-- Python `BubbleSort.sort(array)`: in-place bubble sort of the whole list. -/
def sort (a : List Int) : List Int := outer a a.length 0

end BubbleSort

namespace QuickSort

/-- The `for j in range(low, high)` loop of `QuickSort.partition`, carrying
the running boundary `i` of the `<= pivot` region. -/
def partLoop (a : List Int) (pivot : Int) (i j high : Int) : List Int × Int :=
  if h : j < high then
    if getI a j ≤ pivot then partLoop (swapI a (i + 1) j) pivot (i + 1) (j + 1) high
    else partLoop a pivot i (j + 1) high
  else (a, i)
  termination_by (high - j).toNat
  decreasing_by
  · omega
  · omega

/-- Python `QuickSort.partition(array, low, high)` (Lomuto scheme): pivot is
`array[high]`, `i` starts at `low - 1`; afterwards the pivot is swapped to
position `i + 1`, which is returned. -/
def partition (a : List Int) (low high : Int) : List Int × Int :=
  let pivot := getI a high
  let r := partLoop a pivot (low - 1) low high
  (swapI r.1 (r.2 + 1) high, r.2 + 1)

/-- Python `QuickSort.quick_sort(array, low, high)`: recursive in-place quicksort
of the segment `[low, high]`. -/
def quick_sort (a : List Int) (low high : Int) : List Int :=
  if h : low < high then
    quick_sort (quick_sort (partition a low high).1 low ((partition a low high).2 - 1))
      ((partition a low high).2 + 1) high
  else a
  termination_by (high - low).toNat
  decreasing_by
  · have hb : ∀ (x : List Int) (pv i2 j2 h2 : Int), i2 < j2 → j2 ≤ h2 →
        i2 ≤ (partLoop x pv i2 j2 h2).2 ∧ (partLoop x pv i2 j2 h2).2 < h2 := by
      intro x pv i2 j2 h2
      induction x, pv, i2, j2, h2 using partLoop.induct with
      | case1 x pv i2 j2 h2 hjh hle ih =>
        intro ha1 ha2
        rw [partLoop, dif_pos hjh, if_pos hle]
        have h3 := ih (by omega) (by omega)
        omega
      | case2 x pv i2 j2 h2 hjh hle ih =>
        intro ha1 ha2
        rw [partLoop, dif_pos hjh, if_neg hle]
        have h3 := ih (by omega) (by omega)
        omega
      | case3 x pv i2 j2 h2 hjh =>
        intro ha1 ha2
        rw [partLoop, dif_neg hjh]
        exact ⟨le_refl i2, by omega⟩
    have h4 := hb a (getI a high) (low - 1) low high (by omega) (by omega)
    unfold partition
    dsimp only
    omega
  · have hb : ∀ (x : List Int) (pv i2 j2 h2 : Int), i2 < j2 → j2 ≤ h2 →
        i2 ≤ (partLoop x pv i2 j2 h2).2 ∧ (partLoop x pv i2 j2 h2).2 < h2 := by
      intro x pv i2 j2 h2
      induction x, pv, i2, j2, h2 using partLoop.induct with
      | case1 x pv i2 j2 h2 hjh hle ih =>
        intro ha1 ha2
        rw [partLoop, dif_pos hjh, if_pos hle]
        have h3 := ih (by omega) (by omega)
        omega
      | case2 x pv i2 j2 h2 hjh hle ih =>
        intro ha1 ha2
        rw [partLoop, dif_pos hjh, if_neg hle]
        have h3 := ih (by omega) (by omega)
        omega
      | case3 x pv i2 j2 h2 hjh =>
        intro ha1 ha2
        rw [partLoop, dif_neg hjh]
        exact ⟨le_refl i2, by omega⟩
    have h4 := hb a (getI a high) (low - 1) low high (by omega) (by omega)
    unfold partition
    dsimp only
    omega

/-- Python `QuickSort.sort(array)`: quicksort of the whole list. -/
def sort (a : List Int) : List Int := quick_sort a 0 ((a.length : Int) - 1)

end QuickSort

/-- The start time string the reference demo passes to its booking command. -/
def demo_start_time : String := "09:00"

/-! Segment extraction `a[lo..hi]` (inclusive bounds) and its interaction
with permutations that fix everything outside the segment. -/

def seg (a : List Int) (lo hi : Nat) : List Int := (a.drop lo).take (hi + 1 - lo)

/-! Basic facts about the array operations. -/

theorem getN_eq_getElem {a : List Int} {i : Nat} (h : i < a.length) : getN a i = a[i] := by
  rw [getN, List.getD_eq_getElem?_getD, List.getElem?_eq_getElem h]
  rfl

theorem length_setN (a : List Int) (i : Nat) (v : Int) : (setN a i v).length = a.length :=
  List.length_set a i v

theorem getN_setN_self {a : List Int} {i : Nat} (v : Int) (h : i < a.length) :
    getN (setN a i v) i = v := by
  rw [getN, setN, List.getD_eq_getElem?_getD, List.getElem?_set_self h]
  rfl

theorem getN_setN_ne {i k : Nat} (a : List Int) (v : Int) (h : i ≠ k) :
    getN (setN a i v) k = getN a k := by
  rw [getN, getN, setN, List.getD_eq_getElem?_getD, List.getD_eq_getElem?_getD,
    List.getElem?_set_ne h]

theorem setN_getN_self {a : List Int} {i : Nat} (h : i < a.length) :
    setN a i (getN a i) = a := by
  apply List.ext_getElem?
  intro n
  rw [setN, List.getElem?_set]
  by_cases hin : i = n
  · subst hin
    rw [if_pos rfl, if_pos h, getN_eq_getElem h, List.getElem?_eq_getElem h]
  · rw [if_neg hin]

theorem length_swapN (a : List Int) (i j : Nat) : (swapN a i j).length = a.length := by
  simp [swapN, setN, List.length_set]

theorem getN_swapN_fst {a : List Int} {i j : Nat} (hi : i < a.length) (hj : j < a.length) :
    getN (swapN a i j) i = getN a j := by
  by_cases hij : i = j
  · subst hij
    rw [swapN, getN_setN_self _ (by rw [length_setN]; exact hi)]
  · rw [swapN, getN_setN_ne _ _ (fun hh => hij hh.symm), getN_setN_self _ hi]

theorem getN_swapN_snd {a : List Int} {i j : Nat} (hj : j < a.length) :
    getN (swapN a i j) j = getN a i := by
  rw [swapN, getN_setN_self _ (by rw [length_setN]; exact hj)]

theorem getN_swapN_ne {i j k : Nat} (a : List Int) (hki : k ≠ i) (hkj : k ≠ j) :
    getN (swapN a i j) k = getN a k := by
  rw [swapN, getN_setN_ne _ _ (Ne.symm hkj), getN_setN_ne _ _ (Ne.symm hki)]

theorem getN_drop (a : List Int) (n k : Nat) : getN (a.drop n) k = getN a (n + k) := by
  rw [getN, getN, List.getD_eq_getElem?_getD, List.getD_eq_getElem?_getD, List.getElem?_drop]

theorem cons_set_perm (R : List Int) (j : Nat) (x : Int) (h : j < R.length) :
    (getN R j :: R.set j x).Perm (x :: R) := by
  have hdecomp : R.set j x = R.take j ++ x :: R.drop (j + 1) := by
    rw [List.set_eq_take_append_cons_drop, if_pos h]
  have hR : R = R.take j ++ R[j] :: R.drop (j + 1) := by
    conv_lhs => rw [← List.take_append_drop j R, List.drop_eq_getElem_cons h]
  rw [getN_eq_getElem h, hdecomp]
  refine List.Perm.trans (List.Perm.cons _ List.perm_middle) ?_
  refine List.Perm.trans (List.Perm.swap _ _ _) ?_
  refine List.Perm.trans (List.Perm.cons _ List.perm_middle.symm) ?_
  rw [← hR]

theorem swapN_perm_of_lt {a : List Int} {i j : Nat} (hij : i < j) (hj : j < a.length) :
    (swapN a i j).Perm a := by
  have hi : i < a.length := lt_trans hij hj
  have hTi : (a.take i).length = i := by rw [List.length_take]; omega
  have ha : a = a.take i ++ a[i] :: a.drop (i + 1) := by
    conv_lhs => rw [← List.take_append_drop i a, List.drop_eq_getElem_cons hi]
  have h1 : setN a i (getN a j) = a.take i ++ getN a j :: a.drop (i + 1) := by
    rw [setN, List.set_eq_take_append_cons_drop, if_pos hi]
  have hjR : j - i - 1 < (a.drop (i + 1)).length := by rw [List.length_drop]; omega
  have key : ∀ (R : List Int) (c v : Int) (m : Nat),
      (c :: R).set (m + 1) v = c :: R.set m v := fun _ _ _ _ => rfl
  have h2 : setN (a.take i ++ getN a j :: a.drop (i + 1)) j (getN a i) =
      a.take i ++ getN a j :: (a.drop (i + 1)).set (j - i - 1) (getN a i) := by
    rw [setN, List.set_append, if_neg (by rw [hTi]; omega)]
    congr 1
    rw [hTi]
    have hsub : j - i = (j - i - 1) + 1 := by omega
    conv_lhs => rw [hsub]
    rw [key]
  have hgj : getN (a.drop (i + 1)) (j - i - 1) = getN a j := by
    rw [getN_drop]
    congr 1
    omega
  rw [swapN, h1, h2, ← hgj]
  refine List.Perm.trans (List.Perm.append_left _ (cons_set_perm _ _ _ hjR)) ?_
  rw [getN_eq_getElem hi, ← ha]

theorem swapN_perm {a : List Int} {i j : Nat} (hi : i < a.length) (hj : j < a.length) :
    (swapN a i j).Perm a := by
  rcases lt_trichotomy i j with h | h | h
  · exact swapN_perm_of_lt h hj
  · subst h
    have h2 : swapN a i i = a := by
      rw [swapN, setN, setN, List.set_set]
      have h3 := setN_getN_self hi
      rw [setN] at h3
      exact h3
    rw [h2]
  · have hcomm : swapN a i j = swapN a j i := by
      rw [swapN, swapN, setN, setN, setN, setN, List.set_comm _ _ _ (by omega : i ≠ j)]
    rw [hcomm]
    exact swapN_perm_of_lt h hi

theorem getN_mem_seg {a : List Int} {lo hi k : Nat} (hlo : lo ≤ k) (hk : k ≤ hi)
    (hkl : k < a.length) : getN a k ∈ seg a lo hi := by
  rw [List.mem_iff_getElem?]
  refine ⟨k - lo, ?_⟩
  rw [seg, List.getElem?_take, if_pos (by omega), List.getElem?_drop]
  have harith : lo + (k - lo) = k := by omega
  rw [harith, List.getElem?_eq_getElem hkl, getN_eq_getElem hkl]

theorem mem_seg {a : List Int} {lo hi : Nat} {x : Int} (hx : x ∈ seg a lo hi) :
    ∃ k, lo ≤ k ∧ k ≤ hi ∧ k < a.length ∧ getN a k = x := by
  rw [List.mem_iff_getElem?] at hx
  obtain ⟨n, hn⟩ := hx
  rw [seg, List.getElem?_take] at hn
  by_cases hlt : n < hi + 1 - lo
  · rw [if_pos hlt, List.getElem?_drop] at hn
    have hno : lo + n < a.length := by
      by_contra hc
      rw [List.getElem?_eq_none (by omega)] at hn
      simp at hn
    refine ⟨lo + n, by omega, by omega, hno, ?_⟩
    rw [getN_eq_getElem hno, ← Option.some_inj, ← List.getElem?_eq_getElem hno, hn]
  · rw [if_neg hlt] at hn
    simp at hn

theorem seg_perm {a b : List Int} {lo hi : Nat} (hp : a.Perm b) (hlh : lo ≤ hi + 1)
    (hout : ∀ k, k < lo ∨ hi < k → getN a k = getN b k) :
    (seg a lo hi).Perm (seg b lo hi) := by
  have hlen : a.length = b.length := hp.length_eq
  have hq : ∀ k, k < lo ∨ hi < k → a[k]? = b[k]? := by
    intro k hk
    by_cases hka : k < a.length
    · rw [List.getElem?_eq_getElem hka, List.getElem?_eq_getElem (hlen ▸ hka)]
      have hg := hout k hk
      rw [getN_eq_getElem hka, getN_eq_getElem (hlen ▸ hka)] at hg
      rw [hg]
    · rw [List.getElem?_eq_none (by omega), List.getElem?_eq_none (by omega)]
  have ht : a.take lo = b.take lo := by
    apply List.ext_getElem?
    intro n
    rw [List.getElem?_take, List.getElem?_take]
    split
    · next hnlo => exact hq n (Or.inl hnlo)
    · rfl
  have hd : a.drop (hi + 1) = b.drop (hi + 1) := by
    apply List.ext_getElem?
    intro n
    rw [List.getElem?_drop, List.getElem?_drop]
    exact hq _ (Or.inr (by omega))
  have harith : lo + (hi + 1 - lo) = hi + 1 := by omega
  have hdeca : a = a.take lo ++ (seg a lo hi ++ a.drop (hi + 1)) := by
    conv_lhs => rw [← List.take_append_drop lo a]
    rw [seg]
    congr 1
    conv_lhs => rw [← List.take_append_drop (hi + 1 - lo) (a.drop lo)]
    rw [List.drop_drop, harith]
  have hdecb : b = b.take lo ++ (seg b lo hi ++ b.drop (hi + 1)) := by
    conv_lhs => rw [← List.take_append_drop lo b]
    rw [seg]
    congr 1
    conv_lhs => rw [← List.take_append_drop (hi + 1 - lo) (b.drop lo)]
    rw [List.drop_drop, harith]
  have hm : (↑a : Multiset Int) = ↑b := Multiset.coe_eq_coe.mpr hp
  rw [hdeca] at hm
  rw [hdecb] at hm
  rw [ht, hd] at hm
  rw [← Multiset.coe_add, ← Multiset.coe_add, ← Multiset.coe_add, ← Multiset.coe_add] at hm
  have hm2 := add_left_cancel hm
  have hm3 := add_right_cancel hm2
  exact Multiset.coe_eq_coe.mp hm3

/-! Int-index wrappers used by the quicksort embedding. -/

theorem getI_coe (a : List Int) (k : Nat) : getI a (k : Int) = getN a k := rfl

theorem length_swapI (a : List Int) (i j : Int) : (swapI a i j).length = a.length :=
  length_swapN a i.toNat j.toNat

theorem getI_swapI_fst {a : List Int} {i j : Int} (h0i : 0 ≤ i) (hi : i < (a.length : Int))
    (h0j : 0 ≤ j) (hj : j < (a.length : Int)) : getI (swapI a i j) i = getI a j := by
  rw [swapI, getI, getI]
  exact getN_swapN_fst (by omega) (by omega)

theorem getI_swapI_snd {a : List Int} {i j : Int} (h0j : 0 ≤ j) (hj : j < (a.length : Int)) :
    getI (swapI a i j) j = getI a i := by
  rw [swapI, getI, getI]
  exact getN_swapN_snd (by omega)

theorem getI_swapI_ne {a : List Int} {i j k : Int} (h0i : 0 ≤ i) (h0j : 0 ≤ j) (h0k : 0 ≤ k)
    (hki : k ≠ i) (hkj : k ≠ j) : getI (swapI a i j) k = getI a k := by
  rw [swapI, getI, getI]
  exact getN_swapN_ne _ (by omega) (by omega)

theorem swapI_perm {a : List Int} {i j : Int} (h0i : 0 ≤ i) (hi : i < (a.length : Int))
    (h0j : 0 ≤ j) (hj : j < (a.length : Int)) : (swapI a i j).Perm a := by
  rw [swapI]
  exact swapN_perm (by omega) (by omega)

namespace BubbleSort

/-- One run of the inner loop: the result is a permutation touching only
positions `j..m`, and position `m` ends up holding a value at least as large
as every value the segment `j..m` held on entry. -/
theorem inner_spec (a : List Int) (j m : Nat) (hm : m < a.length) :
    (inner a j m).Perm a ∧
    (∀ k, k < j ∨ m < k → getN (inner a j m) k = getN a k) ∧
    (∀ k, j ≤ k → k ≤ m → getN a k ≤ getN (inner a j m) m) := by
  induction a, j, m using inner.induct with
  | case1 a j m h ih =>
    rw [inner, dif_pos h]
    by_cases hgt : getN a j > getN a (j + 1)
    · simp only [if_pos hgt, dif_pos hgt] at ih ⊢
      have hlen : (swapN a j (j + 1)).length = a.length := length_swapN a j (j + 1)
      obtain ⟨ihp, ihout, ihmax⟩ := ih (by omega)
      have hsw : (swapN a j (j + 1)).Perm a := swapN_perm (by omega) (by omega)
      refine ⟨ihp.trans hsw, ?_, ?_⟩
      · intro k hk
        rw [ihout k (by omega), getN_swapN_ne _ (by omega) (by omega)]
      · intro k hjk hkm
        have hsnd : getN (swapN a j (j + 1)) (j + 1) = getN a j :=
          getN_swapN_snd (by omega)
        rcases Nat.lt_or_ge k (j + 2) with hk2 | hk2
        · have hbound : getN a k ≤ getN (swapN a j (j + 1)) (j + 1) := by
            rw [hsnd]
            rcases Nat.eq_or_lt_of_le hjk with hkj | hkj
            · rw [← hkj]
            · have hkj1 : k = j + 1 := by omega
              rw [hkj1]
              exact le_of_lt hgt
          exact le_trans hbound (ihmax (j + 1) (le_refl _) (by omega))
        · have he : getN a k = getN (swapN a j (j + 1)) k :=
            (getN_swapN_ne _ (by omega) (by omega)).symm
          rw [he]
          exact ihmax k (by omega) hkm
    · simp only [if_neg hgt, dif_neg hgt] at ih ⊢
      obtain ⟨ihp, ihout, ihmax⟩ := ih hm
      refine ⟨ihp, fun k hk => ihout k (by omega), ?_⟩
      intro k hjk hkm
      rcases Nat.eq_or_lt_of_le hjk with hkj | hkj
      · rw [← hkj]
        exact le_trans (le_of_not_lt hgt) (ihmax (j + 1) (le_refl _) (by omega))
      · exact ihmax k (by omega) hkm
  | case2 a j m h =>
    rw [inner, dif_neg h]
    refine ⟨List.Perm.refl _, fun k _ => rfl, ?_⟩
    intro k hjk hkm
    have hkm2 : k = m := by omega
    rw [hkm2]

/-- After the inner loop, every position of the segment `j..m` holds a value
bounded by the value at `m`. -/
theorem inner_max (a : List Int) (j m : Nat) (hm : m < a.length) :
    ∀ k, j ≤ k → k ≤ m → getN (inner a j m) k ≤ getN (inner a j m) m := by
  intro k hjk hkm
  obtain ⟨hperm, hout, hmax⟩ := inner_spec a j m hm
  have hlen : (inner a j m).length = a.length := hperm.length_eq
  have hsp : (seg (inner a j m) j m).Perm (seg a j m) :=
    seg_perm hperm (by omega) (fun k2 hk2 => hout k2 hk2)
  have hmem : getN (inner a j m) k ∈ seg (inner a j m) j m :=
    getN_mem_seg hjk hkm (by omega)
  obtain ⟨k2, hk1, hk2, _, hk4⟩ := mem_seg (hsp.mem_iff.mp hmem)
  rw [← hk4]
  exact hmax k2 hk1 hk2

/-- Outer-loop invariant: if the suffix of positions `>= n - i` is already
sorted and dominates everything before it, the remaining passes sort the
whole array. -/
theorem outer_spec (n : Nat) : ∀ (c : Nat) (a : List Int) (i : Nat), a.length = n →
    n - 1 - i ≤ c →
    (∀ k1 k2, k1 ≤ k2 → k2 < n → n - i ≤ k2 → getN a k1 ≤ getN a k2) →
    (outer a n i).Perm a ∧
    (∀ k1 k2, k1 ≤ k2 → k2 < n → getN (outer a n i) k1 ≤ getN (outer a n i) k2) := by
  intro c
  induction c with
  | zero =>
    intro a i hlen hc hQ
    have hterm : ¬ i < n - 1 := by omega
    rw [outer, dif_neg hterm]
    refine ⟨List.Perm.refl _, ?_⟩
    intro k1 k2 h12 h2n
    rcases Nat.eq_or_lt_of_le h12 with heq | hlt
    · rw [heq]
    · exact hQ k1 k2 h12 h2n (by omega)
  | succ c ihc =>
    intro a i hlen hc hQ
    by_cases hlt : i < n - 1
    · rw [outer, dif_pos hlt]
      have hmlen : n - 1 - i < a.length := by omega
      obtain ⟨hip, hiout, _⟩ := inner_spec a 0 (n - 1 - i) hmlen
      have hmax := inner_max a 0 (n - 1 - i) hmlen
      have hlen1 : (inner a 0 (n - 1 - i)).length = n := by rw [hip.length_eq, hlen]
      have hQ1 : ∀ k1 k2, k1 ≤ k2 → k2 < n → n - (i + 1) ≤ k2 →
          getN (inner a 0 (n - 1 - i)) k1 ≤ getN (inner a 0 (n - 1 - i)) k2 := by
        intro k1 k2 h12 h2n h2i
        by_cases hk2m : k2 = n - 1 - i
        · rw [hk2m]
          exact hmax k1 (Nat.zero_le _) (by omega)
        · have hk2gt : n - 1 - i < k2 := by omega
          have e2 : getN (inner a 0 (n - 1 - i)) k2 = getN a k2 := hiout k2 (Or.inr hk2gt)
          rw [e2]
          by_cases hk1m : k1 ≤ n - 1 - i
          · have hsp : (seg (inner a 0 (n - 1 - i)) 0 (n - 1 - i)).Perm
                (seg a 0 (n - 1 - i)) :=
              seg_perm hip (by omega) (fun k hk => hiout k hk)
            have hmem : getN (inner a 0 (n - 1 - i)) k1 ∈
                seg (inner a 0 (n - 1 - i)) 0 (n - 1 - i) :=
              getN_mem_seg (Nat.zero_le _) hk1m (by omega)
            obtain ⟨k3, _, hk32, _, hk34⟩ := mem_seg (hsp.mem_iff.mp hmem)
            rw [← hk34]
            exact hQ k3 k2 (by omega) h2n (by omega)
          · have e1 : getN (inner a 0 (n - 1 - i)) k1 = getN a k1 :=
              hiout k1 (Or.inr (by omega))
            rw [e1]
            exact hQ k1 k2 h12 h2n (by omega)
      obtain ⟨hop, hosort⟩ := ihc (inner a 0 (n - 1 - i)) (i + 1) hlen1 (by omega) hQ1
      exact ⟨hop.trans hip, hosort⟩
    · rw [outer, dif_neg hlt]
      refine ⟨List.Perm.refl _, ?_⟩
      intro k1 k2 h12 h2n
      rcases Nat.eq_or_lt_of_le h12 with heq | hlt2
      · rw [heq]
      · exact hQ k1 k2 h12 h2n (by omega)

/-- Python `BubbleSort.sort` returns a pointwise non-decreasing permutation. -/
theorem bsort_spec (a : List Int) :
    (sort a).Perm a ∧
    (∀ k1 k2, k1 ≤ k2 → k2 < a.length → getN (sort a) k1 ≤ getN (sort a) k2) := by
  have h := outer_spec a.length (a.length - 1 - 0) a 0 rfl (le_refl _)
    (by intro k1 k2 h12 h2n hni; exact absurd h2n (by omega))
  exact ⟨h.1, fun k1 k2 h12 h2n => h.2 k1 k2 h12 h2n⟩

end BubbleSort

namespace QuickSort

/-- Invariant proof for the partition loop (Lomuto): positions `lo..i` hold
values `<= pivot`, positions `i+1..j-1` hold values `> pivot`, everything
outside `lo..high-1` is untouched, and the result permutes the input. -/
theorem partLoop_spec (lo : Int) : ∀ (a : List Int) (pivot i j high : Int),
    0 ≤ lo → lo - 1 ≤ i → i < j → j ≤ high → high < (a.length : Int) →
    (∀ k, lo ≤ k → k ≤ i → getI a k ≤ pivot) →
    (∀ k, i < k → k < j → pivot < getI a k) →
    ((partLoop a pivot i j high).1.Perm a ∧
     i ≤ (partLoop a pivot i j high).2 ∧ (partLoop a pivot i j high).2 < high ∧
     (∀ k, 0 ≤ k → (k < lo ∨ high ≤ k) →
       getI (partLoop a pivot i j high).1 k = getI a k) ∧
     (∀ k, lo ≤ k → k ≤ (partLoop a pivot i j high).2 →
       getI (partLoop a pivot i j high).1 k ≤ pivot) ∧
     (∀ k, (partLoop a pivot i j high).2 < k → k < high →
       pivot < getI (partLoop a pivot i j high).1 k)) := by
  intro a pivot i j high
  induction a, pivot, i, j, high using partLoop.induct with
  | case1 a pivot i j high h hle ih =>
    intro h0lo hloi hij hjh hlen hA hB
    rw [partLoop, dif_pos h, if_pos hle]
    have hlen2 : (swapI a (i + 1) j).length = a.length := length_swapI a (i + 1) j
    have hA2 : ∀ k, lo ≤ k → k ≤ i + 1 → getI (swapI a (i + 1) j) k ≤ pivot := by
      intro k hk1 hk2
      by_cases hki : k = i + 1
      · rw [hki, getI_swapI_fst (by omega) (by omega) (by omega) (by omega)]
        exact hle
      · rw [getI_swapI_ne (by omega) (by omega) (by omega) (by omega) (by omega)]
        exact hA k hk1 (by omega)
    have hB2 : ∀ k, i + 1 < k → k < j + 1 → pivot < getI (swapI a (i + 1) j) k := by
      intro k hk1 hk2
      by_cases hkj : k = j
      · rw [hkj, getI_swapI_snd (by omega) (by omega)]
        exact hB (i + 1) (by omega) (by omega)
      · rw [getI_swapI_ne (by omega) (by omega) (by omega) (by omega) (by omega)]
        exact hB k (by omega) (by omega)
    obtain ⟨ihp, ihi, ihh, ihout, ihA, ihB⟩ :=
      ih h0lo (by omega) (by omega) (by omega) (by rw [hlen2]; exact hlen) hA2 hB2
    refine ⟨ihp.trans (swapI_perm (by omega) (by omega) (by omega) (by omega)),
      by omega, ihh, ?_, ihA, ihB⟩
    intro k h0k hk
    rw [ihout k h0k hk]
    exact getI_swapI_ne (by omega) (by omega) h0k (by omega) (by omega)
  | case2 a pivot i j high h hle ih =>
    intro h0lo hloi hij hjh hlen hA hB
    rw [partLoop, dif_pos h, if_neg hle]
    have hB2 : ∀ k, i < k → k < j + 1 → pivot < getI a k := by
      intro k hk1 hk2
      by_cases hkj : k = j
      · rw [hkj]
        exact not_le.mp hle
      · exact hB k hk1 (by omega)
    exact ih h0lo hloi (by omega) (by omega) hlen hA hB2
  | case3 a pivot i j high h =>
    intro h0lo hloi hij hjh hlen hA hB
    rw [partLoop, dif_neg h]
    refine ⟨List.Perm.refl _, le_refl _, by omega, fun k _ _ => rfl, hA, ?_⟩
    intro k hk1 hk2
    exact hB k hk1 (by omega)

/-- Python `partition` places the pivot at the returned index: everything on its
left within the segment is `<=` it, everything on its right within the
segment is `>` it, the rest of the list is untouched, and the result is a
permutation of the input. -/
theorem partition_spec (a : List Int) (low high : Int)
    (h0 : 0 ≤ low) (hlh : low < high) (hlen : high < (a.length : Int)) :
    (partition a low high).1.Perm a ∧
    low ≤ (partition a low high).2 ∧ (partition a low high).2 ≤ high ∧
    (∀ k, 0 ≤ k → (k < low ∨ high < k) → getI (partition a low high).1 k = getI a k) ∧
    (∀ k, low ≤ k → k < (partition a low high).2 →
      getI (partition a low high).1 k ≤
        getI (partition a low high).1 (partition a low high).2) ∧
    (∀ k, (partition a low high).2 < k → k ≤ high →
      getI (partition a low high).1 (partition a low high).2 <
        getI (partition a low high).1 k) := by
  obtain ⟨hp, hi, hh, hout, hA, hB⟩ :=
    partLoop_spec low a (getI a high) (low - 1) low high h0 (by omega) (by omega)
      (by omega) hlen (fun k hk1 hk2 => absurd (le_trans hk1 hk2) (by omega))
      (fun k hk1 hk2 => absurd (lt_trans hk1 hk2) (by omega))
  have hpe : partition a low high =
      (swapI (partLoop a (getI a high) (low - 1) low high).1
        ((partLoop a (getI a high) (low - 1) low high).2 + 1) high,
       (partLoop a (getI a high) (low - 1) low high).2 + 1) := rfl
  rw [hpe]
  dsimp only
  set q := partLoop a (getI a high) (low - 1) low high with hqdef
  have hlen1 : q.1.length = a.length := hp.length_eq
  have hpiveq : getI q.1 high = getI a high := hout high (by omega) (Or.inr (le_refl _))
  have hpiv : getI (swapI q.1 (q.2 + 1) high) (q.2 + 1) = getI a high := by
    rw [getI_swapI_fst (by omega) (by omega) (by omega) (by omega)]
    exact hpiveq
  refine ⟨?_, by omega, by omega, ?_, ?_, ?_⟩
  · exact (swapI_perm (by omega) (by omega) (by omega) (by omega)).trans hp
  · intro k h0k hk
    rw [getI_swapI_ne (by omega) (by omega) h0k (by omega) (by omega)]
    exact hout k h0k (by omega)
  · intro k hk1 hk2
    rw [hpiv, getI_swapI_ne (by omega) (by omega) (by omega) (by omega) (by omega)]
    calc getI q.1 k ≤ getI a high := hA k hk1 (by omega)
      _ = getI a high := rfl
  · intro k hk1 hk2
    rw [hpiv]
    by_cases hkh : k = high
    · rw [hkh, getI_swapI_snd (by omega) (by omega)]
      exact hB (q.2 + 1) (by omega) (by omega)
    · rw [getI_swapI_ne (by omega) (by omega) (by omega) (by omega) (by omega)]
      exact hB k (by omega) (by omega)

end QuickSort

namespace QuickSort

/-- Python `quick_sort` sorts the segment `[low, high]`, touches nothing outside
it, and permutes the whole list. -/
theorem quick_sort_spec : ∀ (c : Nat) (a : List Int) (low high : Int),
    (high - low).toNat ≤ c → 0 ≤ low → high < (a.length : Int) →
    ((quick_sort a low high).Perm a ∧
     (∀ k, 0 ≤ k → (k < low ∨ high < k) → getI (quick_sort a low high) k = getI a k) ∧
     (∀ k1 k2, low ≤ k1 → k1 ≤ k2 → k2 ≤ high →
       getI (quick_sort a low high) k1 ≤ getI (quick_sort a low high) k2)) := by
  intro c
  induction c with
  | zero =>
    intro a low high hc h0 hlen
    have hterm : ¬ low < high := by omega
    rw [quick_sort, dif_neg hterm]
    refine ⟨List.Perm.refl _, fun k _ _ => rfl, ?_⟩
    intro k1 k2 hk1 hk12 hk2
    have hk : k1 = k2 := by omega
    rw [hk]
  | succ c ihc =>
    intro a low high hc h0 hlen
    by_cases hlt : low < high
    · rw [quick_sort, dif_pos hlt]
      obtain ⟨pp, pl, ph, pout, pA, pB⟩ := partition_spec a low high h0 hlt hlen
      set p := partition a low high with hpdef
      have hlenp : p.1.length = a.length := pp.length_eq
      obtain ⟨r1p, r1out, r1sort⟩ := ihc p.1 low (p.2 - 1) (by omega) h0 (by omega)
      set r1 := quick_sort p.1 low (p.2 - 1) with hr1def
      have hlenr1 : r1.length = a.length := by rw [r1p.length_eq, hlenp]
      obtain ⟨r2p, r2out, r2sort⟩ := ihc r1 (p.2 + 1) high (by omega) (by omega) (by omega)
      set r2 := quick_sort r1 (p.2 + 1) high with hr2def
      have hlenr2 : r2.length = a.length := by rw [r2p.length_eq, hlenr1]
      have hpivr2 : getI r2 p.2 = getI p.1 p.2 := by
        rw [r2out p.2 (by omega) (Or.inl (by omega)), r1out p.2 (by omega) (Or.inr (by omega))]
      have e_left : ∀ k, 0 ≤ k → k ≤ p.2 → getI r2 k = getI r1 k := fun k h0k hk =>
        r2out k h0k (Or.inl (by omega))
      have hleft : ∀ k, low ≤ k → k < p.2 → getI r2 k ≤ getI p.1 p.2 := by
        intro k hk1 hk2
        rw [e_left k (by omega) (by omega)]
        have hsp : (seg r1 low.toNat (p.2 - 1).toNat).Perm
            (seg p.1 low.toNat (p.2 - 1).toNat) := by
          apply seg_perm r1p (by omega)
          intro kn hkn
          have h2 := r1out ((kn : Int)) (by omega) (by omega)
          rw [getI_coe, getI_coe] at h2
          exact h2
        have hmem : getN r1 k.toNat ∈ seg r1 low.toNat (p.2 - 1).toNat :=
          getN_mem_seg (by omega) (by omega) (by omega)
        obtain ⟨k2, hk21, hk22, hk23, hk24⟩ := mem_seg (hsp.mem_iff.mp hmem)
        have hg : getI r1 k = getN p.1 k2 := by
          rw [getI, ← hk24]
        rw [hg, ← getI_coe]
        exact pA ((k2 : Int)) (by omega) (by omega)
      have hright : ∀ k, p.2 < k → k ≤ high → getI p.1 p.2 < getI r2 k := by
        intro k hk1 hk2
        have hsp : (seg r2 (p.2 + 1).toNat high.toNat).Perm
            (seg r1 (p.2 + 1).toNat high.toNat) := by
          apply seg_perm r2p (by omega)
          intro kn hkn
          have h2 := r2out ((kn : Int)) (by omega) (by omega)
          rw [getI_coe, getI_coe] at h2
          exact h2
        have hmem : getN r2 k.toNat ∈ seg r2 (p.2 + 1).toNat high.toNat :=
          getN_mem_seg (by omega) (by omega) (by omega)
        obtain ⟨k2, hk21, hk22, hk23, hk24⟩ := mem_seg (hsp.mem_iff.mp hmem)
        have hg : getI r2 k = getN r1 k2 := by
          rw [getI, ← hk24]
        rw [hg, ← getI_coe]
        rw [r1out ((k2 : Int)) (by omega) (Or.inr (by omega))]
        exact pB ((k2 : Int)) (by omega) (by omega)
      refine ⟨r2p.trans (r1p.trans pp), ?_, ?_⟩
      · intro k h0k hk
        have hko1 : k < low ∨ p.2 - 1 < k := by omega
        have hko2 : k < p.2 + 1 ∨ high < k := by omega
        rw [r2out k h0k hko2, r1out k h0k hko1]
        exact pout k h0k hk
      · intro k1 k2 hk1 hk12 hk2
        by_cases hc2 : k2 < p.2
        · rw [e_left k1 (by omega) (by omega), e_left k2 (by omega) (by omega)]
          exact r1sort k1 k2 hk1 hk12 (by omega)
        · by_cases hc1 : p.2 < k1
          · exact r2sort k1 k2 (by omega) hk12 hk2
          · have hle1 : getI r2 k1 ≤ getI p.1 p.2 := by
              by_cases h1 : k1 = p.2
              · rw [h1, hpivr2]
              · exact hleft k1 hk1 (by omega)
            have hle2 : getI p.1 p.2 ≤ getI r2 k2 := by
              by_cases h2 : k2 = p.2
              · rw [h2, hpivr2]
              · exact le_of_lt (hright k2 (by omega) hk2)
            exact le_trans hle1 hle2
    · rw [quick_sort, dif_neg hlt]
      refine ⟨List.Perm.refl _, fun k _ _ => rfl, ?_⟩
      intro k1 k2 hk1 hk12 hk2
      have hk : k1 = k2 := by omega
      rw [hk]

/-- Python `QuickSort.sort` returns a pointwise non-decreasing permutation. -/
theorem qsort_spec (a : List Int) :
    (sort a).Perm a ∧
    (∀ k1 k2, k1 ≤ k2 → k2 < a.length → getN (sort a) k1 ≤ getN (sort a) k2) := by
  obtain ⟨hp, _, hs⟩ := quick_sort_spec ((a.length : Int) - 1 - 0).toNat a 0
    ((a.length : Int) - 1) (le_refl _) (le_refl 0) (by omega)
  rw [sort]
  refine ⟨hp, ?_⟩
  intro k1 k2 h12 h2
  have h3 := hs ((k1 : Int)) ((k2 : Int)) (by omega) (by omega) (by omega)
  rw [getI_coe, getI_coe] at h3
  exact h3

end QuickSort

/-- A list whose entries are pointwise non-decreasing is `Sorted (· ≤ ·)`. -/
theorem sorted_of_pointwise {l : List Int}
    (h : ∀ k1 k2, k1 ≤ k2 → k2 < l.length → getN l k1 ≤ getN l k2) :
    List.Sorted (fun x y => x ≤ y) l := by
  apply List.pairwise_iff_getElem.mpr
  intro i j hi hj hij
  have h2 := h i j (by omega) hj
  rw [getN_eq_getElem hi, getN_eq_getElem hj] at h2
  exact h2

/-- C10: the two sorting strategies are extensionally equivalent: on every
input list they produce the same final list, namely a non-decreasing
permutation of the input. -/
theorem sorting_strategies_equivalent (a : List Int) :
    BubbleSort.sort a = QuickSort.sort a ∧
    List.Sorted (fun x y => x ≤ y) (BubbleSort.sort a) ∧
    (BubbleSort.sort a).Perm a := by
  obtain ⟨hbp, hbs⟩ := BubbleSort.bsort_spec a
  obtain ⟨hqp, hqs⟩ := QuickSort.qsort_spec a
  have hblen : (BubbleSort.sort a).length = a.length := hbp.length_eq
  have hqlen : (QuickSort.sort a).length = a.length := hqp.length_eq
  have hbsorted : List.Sorted (fun x y => x ≤ y) (BubbleSort.sort a) :=
    sorted_of_pointwise (fun k1 k2 h12 h2 => hbs k1 k2 h12 (by omega))
  have hqsorted : List.Sorted (fun x y => x ≤ y) (QuickSort.sort a) :=
    sorted_of_pointwise (fun k1 k2 h12 h2 => hqs k1 k2 h12 (by omega))
  have heq : BubbleSort.sort a = QuickSort.sort a :=
    List.eq_of_perm_of_sorted (hbp.trans hqp.symm) hbsorted hqsorted
  exact ⟨heq, hbsorted, hbp⟩

/-- C1: after `add_occupants(count)` the room is occupied exactly when
`count >= 2`, whatever the prior state. -/
theorem add_occupants_occupied_iff (r : Room) (count : Int) :
    (r.add_occupants count).1.is_occupied = decide (2 ≤ count) := by
  by_cases h : (2 : Int) ≤ count <;>
    simp [Room.add_occupants, Room.is_occupied, h]

/-- C2: on a room whose observer list is the one set by `Room.__init__`,
both `add_occupants` and `release_occupants` deliver exactly one update per
observer, AC before Lights, carrying the resulting occupancy value. -/
theorem notify_trace (r : Room) (count : Int)
    (h : r.observers = [Observer.AC, Observer.Lights]) :
    (r.add_occupants count).2 =
      [(Observer.AC, (r.add_occupants count).1.is_occupied),
       (Observer.Lights, (r.add_occupants count).1.is_occupied)] ∧
    (r.release_occupants).2 = [(Observer.AC, false), (Observer.Lights, false)] := by
  by_cases hc : (2 : Int) ≤ count <;>
    simp [Room.add_occupants, Room.release_occupants, Room.notify_observers,
      Room.is_occupied, h, hc]

/-- Witness for C2 at a concrete freshly initialised room. -/
theorem notify_trace_witness :
    ((Room.init 1).add_occupants 3).2 =
      [(Observer.AC, ((Room.init 1).add_occupants 3).1.is_occupied),
       (Observer.Lights, ((Room.init 1).add_occupants 3).1.is_occupied)] ∧
    ((Room.init 1).release_occupants).2 =
      [(Observer.AC, false), (Observer.Lights, false)] :=
  notify_trace (Room.init 1) 3 rfl

/-- C3 counterexample: calling `configure_rooms 1` twice yields room numbers
`[1, 1]`, not the claimed `[1, 2]` — numbering restarts at 1 on every call. -/
theorem configure_rooms_restarts_numbering :
    ((((OfficeManager.mk []).configure_rooms 1).configure_rooms 1).rooms.map
        Room.get_room_number) = [1, 1] ∧
    ([1, 1] : List Int) ≠ [1, 2] := by
  constructor
  · rfl
  · decide

/-- C3 amended: `configure_rooms(count)` appends exactly `count` rooms and
leaves the existing rooms untouched, but the appended rooms are numbered
`1, 2, ..., count` regardless of how many rooms already exist. -/
theorem configure_rooms_appends (m : OfficeManager) (count : Int) :
    (m.configure_rooms count).rooms.length = m.rooms.length + count.toNat ∧
    (m.configure_rooms count).rooms.take m.rooms.length = m.rooms ∧
    ((m.configure_rooms count).rooms.drop m.rooms.length).map Room.get_room_number
      = (List.range count.toNat).map (fun i => Int.ofNat (i + 1)) := by
  refine ⟨?_, ?_, ?_⟩
  · unfold OfficeManager.configure_rooms
    rw [List.length_append, List.length_map, List.length_range]
  · simp [OfficeManager.configure_rooms, List.take_left]
  · simp [OfficeManager.configure_rooms, List.drop_left, List.map_map,
      Function.comp, Room.get_room_number, Room.init]

/-- C4: `get_room(k)` returns a room exactly when `1 <= k <= len(rooms)`,
and then it is the room at 1-based position `k`; otherwise it returns
`None`.  `get_room` reads the registry without modifying it. -/
theorem get_room_spec (m : OfficeManager) (k : Int) :
    ((m.get_room k).isSome = true ↔ 1 ≤ k ∧ k ≤ (m.rooms.length : Int)) ∧
    (1 ≤ k → k ≤ (m.rooms.length : Int) → m.get_room k = m.rooms[(k - 1).toNat]?) ∧
    (¬ (1 ≤ k ∧ k ≤ (m.rooms.length : Int)) → m.get_room k = none) := by
  refine ⟨?_, ?_, ?_⟩
  · constructor
    · intro hs
      by_contra hk
      unfold OfficeManager.get_room at hs
      rw [if_neg (by omega)] at hs
      simp at hs
    · intro hk
      unfold OfficeManager.get_room
      rw [if_pos ⟨by omega, hk.2⟩]
      have hlt : (k - 1).toNat < m.rooms.length := by omega
      rw [List.getElem?_eq_getElem hlt]
      rfl
  · intro h1 h2
    unfold OfficeManager.get_room
    rw [if_pos ⟨by omega, h2⟩]
  · intro h
    unfold OfficeManager.get_room
    rw [if_neg]
    omega

/-- Witness for C4 on a one-room registry at `k = 1`. -/
theorem get_room_spec_witness :
    (((OfficeManager.mk [Room.init 1]).get_room 1).isSome = true ↔
      1 ≤ (1 : Int) ∧ (1 : Int) ≤ ((OfficeManager.mk [Room.init 1]).rooms.length : Int)) ∧
    (1 ≤ (1 : Int) → (1 : Int) ≤ ((OfficeManager.mk [Room.init 1]).rooms.length : Int) →
      (OfficeManager.mk [Room.init 1]).get_room 1 =
        (OfficeManager.mk [Room.init 1]).rooms[((1 : Int) - 1).toNat]?) ∧
    (¬ (1 ≤ (1 : Int) ∧ (1 : Int) ≤ ((OfficeManager.mk [Room.init 1]).rooms.length : Int)) →
      (OfficeManager.mk [Room.init 1]).get_room 1 = none) :=
  get_room_spec (OfficeManager.mk [Room.init 1]) 1

/-- C5: booking a free room records 2 occupants (making it occupied) and
reports the booking with the command's start time and duration; booking an
occupied room reports a conflict and changes nothing, so re-executing the
same command object after a successful booking reports a conflict and
leaves the room state as the first execution left it. -/
theorem book_execute_spec (c : BookRoomCommand) (room : Room) :
    (room.is_occupied = false →
        (c.execute room).1.is_occupied = true ∧
        (c.execute room).2 = BookResult.booked c.start_time c.duration ∧
        (c.execute ((c.execute room).1)).1 = (c.execute room).1 ∧
        (c.execute ((c.execute room).1)).2 = BookResult.conflict) ∧
    (room.is_occupied = true →
        (c.execute room).1 = room ∧ (c.execute room).2 = BookResult.conflict) := by
  obtain ⟨num, occ, cap, obs⟩ := room
  constructor
  · intro h
    simp only [Room.is_occupied] at h
    subst h
    simp [BookRoomCommand.execute, Room.add_occupants, Room.is_occupied,
      Room.notify_observers]
  · intro h
    simp only [Room.is_occupied] at h
    subst h
    simp [BookRoomCommand.execute, Room.is_occupied]

/-- Witness for C5: booking a fresh room succeeds and re-execution conflicts. -/
theorem book_execute_spec_witness :
    ((⟨demo_start_time, 60⟩ : BookRoomCommand).execute (Room.init 1)).1.is_occupied = true ∧
    ((⟨demo_start_time, 60⟩ : BookRoomCommand).execute (Room.init 1)).2 =
      BookResult.booked demo_start_time 60 ∧
    ((⟨demo_start_time, 60⟩ : BookRoomCommand).execute
        (((⟨demo_start_time, 60⟩ : BookRoomCommand).execute (Room.init 1)).1)).1 =
      ((⟨demo_start_time, 60⟩ : BookRoomCommand).execute (Room.init 1)).1 ∧
    ((⟨demo_start_time, 60⟩ : BookRoomCommand).execute
        (((⟨demo_start_time, 60⟩ : BookRoomCommand).execute (Room.init 1)).1)).2 =
      BookResult.conflict :=
  (book_execute_spec ⟨demo_start_time, 60⟩ (Room.init 1)).1 rfl

/-- C6: cancelling an occupied room releases it and reports success;
cancelling an unoccupied room reports that it is not booked and changes
nothing. -/
theorem cancel_execute_spec (room : Room) :
    (room.is_occupied = true →
        (CancelBookingCommand.execute room).1.is_occupied = false ∧
        (CancelBookingCommand.execute room).2 = CancelResult.cancelled) ∧
    (room.is_occupied = false →
        (CancelBookingCommand.execute room).1 = room ∧
        (CancelBookingCommand.execute room).2 = CancelResult.notBooked) := by
  obtain ⟨num, occ, cap, obs⟩ := room
  constructor
  · intro h
    simp only [Room.is_occupied] at h
    subst h
    simp [CancelBookingCommand.execute, Room.release_occupants, Room.is_occupied,
      Room.notify_observers]
  · intro h
    simp only [Room.is_occupied] at h
    subst h
    simp [CancelBookingCommand.execute, Room.is_occupied]

/-- Witness for C6: cancelling an occupied room frees it, cancelling a fresh
room is a no-op. -/
theorem cancel_execute_spec_witness :
    (CancelBookingCommand.execute (((Room.init 1).add_occupants 2).1)).1.is_occupied = false ∧
    (CancelBookingCommand.execute (((Room.init 1).add_occupants 2).1)).2 =
      CancelResult.cancelled :=
  (cancel_execute_spec (((Room.init 1).add_occupants 2).1)).1 rfl

/-- C7: `set_max_capacity(n)` sets the capacity to `n` exactly when `n > 0`
(otherwise the capacity is unchanged), reports validity of the argument, and
never touches the occupancy or the room number. -/
theorem set_max_capacity_spec (r : Room) (n : Int) :
    (r.set_max_capacity n).1.max_capacity = (if 0 < n then n else r.max_capacity) ∧
    (r.set_max_capacity n).2 = decide (0 < n) ∧
    (r.set_max_capacity n).1.occupied = r.occupied ∧
    (r.set_max_capacity n).1.room_number = r.room_number := by
  by_cases h : 0 < n <;> simp [Room.set_max_capacity, h]

/-- C8: constructing `OfficeManager` again returns the stored instance with
its configured rooms intact, and construction is idempotent on the
`_instance` state. -/
theorem officeManager_singleton (s : Option OfficeManager) (m : OfficeManager) :
    OfficeManager.new_ ((OfficeManager.new_ s).2) = OfficeManager.new_ s ∧
    OfficeManager.new_ (some m) = (m, some m) := by
  cases s <;> simp [OfficeManager.new_]

/-- C9: `release_occupants()` always leaves the room unoccupied. -/
theorem release_occupants_unoccupied (r : Room) :
    (r.release_occupants).1.is_occupied = false := rfl
